import Mathlib

/-! Overview:
Shallow embedding of the query-builder generation pipeline of
`src/reflection/generate.ts` (`generateQB`), covering the surface merger
(lines 172-287), the `typesByName` index (lines 98-104) and the
write/synchronize phase (lines 292-489), together with proofs about the
documented properties of these parts.
-/

set_option autoImplicit false

namespace EdgedbGen

/-! Surface merger (generate.ts lines 172-287) -/

/-- A generated module as observed by the surface merger: `generateQB` only
asks a `DirBuilder` module whether it `isEmpty()` and for its
`getDefaultExportKeys()`. -/
structure GenModule where
  isEmpty : Bool
  defaultExportKeys : List String
deriving Repr, DecidableEq

/-- One entry of the `spreadModules` array (generate.ts lines 172-206):
a name, an optional explicit key list and an optional backing module. -/
structure SpreadModule where
  name : String
  keys : Option (List String) := none
  module : Option GenModule := none
deriving Repr, DecidableEq

/-- `module?.isEmpty()` (line 211): an entry is skipped iff it has a backing
module and that module is empty. -/
def spreadSkipped (sm : SpreadModule) : Bool :=
  match sm.module with
  | some m => m.isEmpty
  | none => false

/-- `keys = keys ?? module!.getDefaultExportKeys()` (line 214). When both
fields are absent the source would crash on `module!`; that combination never
occurs in `spreadModules`, and we return `[]` for it. -/
def resolvedKeys (sm : SpreadModule) : List String :=
  match sm.keys with
  | some ks => ks
  | none =>
    match sm.module with
    | some m => m.defaultExportKeys
    | none => []

/-- `genutil.quote`: wrap a name in double quotes (no key occurring in the
merge contains a character that needs escaping). -/
def quote (s : String) : String := "\"" ++ s ++ "\""

/-- `keys.filter(key => excludedKeys.has(key))` (line 215). -/
def conflictingKeysFor (excluded : List String) (sm : SpreadModule) : List String :=
  (resolvedKeys sm).filter (fun key => excluded.contains key)

/-- The `typeStr` computation (lines 216-223): an `Omit` of the conflicting
keys when there are any, plain `typeof` otherwise. -/
def typeStrFor (excluded : List String) (sm : SpreadModule) : String :=
  let conflictingKeys := conflictingKeysFor excluded sm
  if conflictingKeys.isEmpty then
    "typeof " ++ sm.name
  else
    "Omit<typeof " ++ sm.name ++ ", " ++
      String.intercalate " | " (conflictingKeys.map quote) ++ ">"

/-- The value pushed onto `spreadTypes` (lines 224-226): the `$syntax` entry
is wrapped in `$.util.OmitDollarPrefixed<...>`. -/
def spreadTypeEntry (excluded : List String) (sm : SpreadModule) : String :=
  if sm.name = "$syntax" then
    "$.util.OmitDollarPrefixed<" ++ typeStrFor excluded sm ++ ">"
  else
    typeStrFor excluded sm

/-- The mutable state of the merge loop (lines 207-230): the `excludedKeys`
set (modelled as a list, queried only through membership) and the
`spreadTypes` array. -/
structure MergeState where
  excludedKeys : List String
  spreadTypes : List String
deriving Repr, DecidableEq

/-- One iteration of `for (let {name, keys, module} of spreadModules)`
(lines 210-230): skip empty-module entries, otherwise push the type entry
computed against the current excluded set and then add all resolved keys. -/
def mergeStep (st : MergeState) (sm : SpreadModule) : MergeState :=
  if spreadSkipped sm then st
  else
    { excludedKeys := st.excludedKeys ++ resolvedKeys sm
      spreadTypes := st.spreadTypes ++ [spreadTypeEntry st.excludedKeys sm] }

/-- The whole merge loop. `moduleNames` is `dir._modules.keys()`, the seed of
`excludedKeys` (line 207: `new Set<string>(dir._modules.keys())`). -/
def mergeSpreads (moduleNames : List String) (mods : List SpreadModule) : MergeState :=
  mods.foldl mergeStep { excludedKeys := moduleNames, spreadTypes := [] }

/-- `spreadTypes.reverse()` as joined into the merged type (line 236): the
components of the merged intersection type, in emission order. -/
def mergedSpreadTypes (moduleNames : List String) (mods : List SpreadModule) : List String :=
  (mergeSpreads moduleNames mods).spreadTypes.reverse

/-- The runtime spread expression written for one entry (lines 253-256):
`$syntax` is spread through `$.util.omitDollarPrefixed($syntax)`, every other
entry is spread as its own name. -/
def spreadExpr (sm : SpreadModule) : String :=
  if sm.name = "$syntax" then "$.util.omitDollarPrefixed($syntax)" else sm.name

/-- The runtime spread list (lines 249-258): iterate
`[...spreadModules].reverse()`, skip empty-module entries, emit one spread
expression per remaining entry, in that order. -/
def runtimeSpreads (mods : List SpreadModule) : List String :=
  (mods.reverse.filter (fun sm => !spreadSkipped sm)).map spreadExpr

/-- The explicit key list of the built-in `$syntax` entry
(generate.ts lines 180-199). -/
def builtinStxKeys : List String :=
  ["ASC", "DESC", "EMPTY_FIRST", "EMPTY_LAST", "alias", "array", "cast",
   "detached", "for", "insert", "is", "literal", "namedTuple", "optional",
   "select", "set", "tuple", "with", "withParams"]

/-- The concrete `spreadModules` array (lines 172-206), parameterized by the
two modules fetched with `dir.getModule("default")` / `dir.getModule("std")`. -/
def spreadModules (defaultModule stdModule : GenModule) : List SpreadModule :=
  [ { name := "$op", keys := some ["op"] },
    { name := "$syntax", keys := some builtinStxKeys },
    { name := "_default", module := some defaultModule },
    { name := "_std", module := some stdModule } ]

/-- Declared-order enumeration of the per-entry type descriptions: one entry
per non-skipped spread module, in declaration order, each computed against
the keys accumulated from the seed and from the earlier non-skipped entries.
(The loop of lines 210-230 produces exactly this list; see
`mergeSpreads_spreadTypes_eq_declared`.) -/
def spreadTypesDeclared (excluded : List String) : List SpreadModule → List String
  | [] => []
  | sm :: rest =>
    if spreadSkipped sm then spreadTypesDeclared excluded rest
    else spreadTypeEntry excluded sm ::
      spreadTypesDeclared (excluded ++ resolvedKeys sm) rest

/-! The `typesByName` index (generate.ts lines 98-104) -/

/-- An introspected type as far as the index is concerned: its
fully-qualified (or placeholder) name. -/
structure SchemaType where
  name : String
deriving Repr, DecidableEq

/-- JS object assignment `m[k] = v`: replace an existing binding, otherwise
append a new one. -/
def recordSet (m : List (String × SchemaType)) (k : String) (v : SchemaType) :
    List (String × SchemaType) :=
  if m.any (fun e => e.1 = k) then
    m.map (fun e => if e.1 = k then (k, v) else e)
  else
    m ++ [(k, v)]

/-- JS object read `m[k]`. -/
def recordGet (m : List (String × SchemaType)) (k : String) : Option SchemaType :=
  (m.find? (fun e => e.1 = k)).map (fun e => e.2)

/-- The `typesByName` construction loop (generate.ts lines 98-104):

    for (const type of types.values()) {
      typesByName[type.name] = type;
      // skip "anytype" and "anytuple"
      if (!type.name.includes("::")) continue;
    }

Every type is inserted unconditionally; the guarded `continue` is the last
statement of the loop body, so it skips nothing. -/
def buildTypesByName (types : List SchemaType) : List (String × SchemaType) :=
  types.foldl (fun acc t => recordSet acc t.name t) []

/-- Character-list prefix test (structurally recursive, so that concrete
instances reduce inside the kernel). -/
def isCharPre : List Char → List Char → Bool
  | [], _ => true
  | _ :: _, [] => false
  | a :: pat, b :: s => a == b && isCharPre pat s

/-- Substring occurrence on character lists: does `pat` occur contiguously? -/
def charSubOccurs (pat : List Char) : List Char → Bool
  | [] => pat.isEmpty
  | c :: rest => isCharPre pat (c :: rest) || charSubOccurs pat rest

/-- `type.name.includes("::")`: a name is fully qualified iff it contains the
module separator. -/
def isFullyQualified (s : String) : Bool :=
  charSubOccurs "::".data s.data

/-! Write / synchronize phase (generate.ts lines 292-489)

The output directory is modelled flatly as a list of (path, contents) pairs
with pairwise distinct paths. -/

/-- The output directory: files by absolute path. -/
abbrev FS := List (String × String)

/-- `readFileUtf8` (successful case): the contents at a path, `none` when the
file does not exist. -/
def fsRead (fs : FS) (p : String) : Option String :=
  (fs.find? (fun e => e.1 = p)).map (fun e => e.2)

/-- `fs.writeFile`: replace the file at `p`, or create it. -/
def fsWrite (fs : FS) (p c : String) : FS :=
  if fs.any (fun e => e.1 = p) then
    fs.map (fun e => if e.1 = p then (p, c) else e)
  else
    fs ++ [(p, c)]

/-- `fs.rm`. -/
def fsRemove (fs : FS) (p : String) : FS :=
  fs.filter (fun e => e.1 ≠ p)

/-- `walk(outputDir)`: the paths of all existing files. -/
def fsPaths (fs : FS) : List String :=
  fs.map (fun e => e.1)

/-- The five target profiles (generate.ts line 56). -/
inductive Target
  | ts
  | esm
  | cjs
  | mts
  | deno
deriving Repr, DecidableEq

/-- The serialized name of a target, as `JSON.stringify` renders it. -/
def Target.toStr : Target → String
  | .ts => "ts"
  | .esm => "esm"
  | .cjs => "cjs"
  | .mts => "mts"
  | .deno => "deno"

/-- `configFileHeader` (generate.ts line 36). -/
def configFileHeader : String :=
  "// EdgeDB query builder. To update, run `npx edgeql-js`"

/-- `JSON.stringify({target})` (line 479). -/
def targetJson (t : Target) : String :=
  "\x7b\"target\":\"" ++ t.toStr ++ "\"\x7d"

/-- The full contents written to `config.json` (lines 477-480):
the header comment, a newline, the serialized profile, a newline. -/
def configFileContents (t : Target) : String :=
  configFileHeader ++ "\n" ++ targetJson t ++ "\n"

/-- The disallowed cross-directory reference pattern
(`contents.indexOf(...)`, line 382). -/
def crossDirPattern : String := "\"edgedb/dist/reflection\""

/-- `contents.indexOf(crossDirPattern) !== -1`: substring containment. -/
def containsCrossDirRef (s : String) : Bool :=
  charSubOccurs crossDirPattern.data s.data

/-- Modelled from the spec: `DirBuilder.prototype.write` (builders.ts, not
among these sources) renders each module file; per the Directory Synchronizer
protocol it adds each resolved path to `written`, reads the existing file at
that path if any, compares byte-for-byte against the rendered contents, and
writes only on mismatch. The input is the list of already-rendered
(path, contents) pairs. Returns the updated filesystem, the paths added to
`written`, and the paths actually passed to `fs.writeFile`. -/
def writeRenderedFiles (fs : FS) :
    List (String × String) → FS × List String × List String
  | [] => (fs, [], [])
  | (p, c) :: rest =>
    let step : FS × List String :=
      match fsRead fs p with
      | some old => if old = c then (fs, []) else (fsWrite fs p c, [p])
      | none => (fsWrite fs p c, [p])
    let (fs2, ws, evs) := writeRenderedFiles step.1 rest
    (fs2, p :: ws, step.2 ++ evs)

/-- The static support-file copy loop (generate.ts lines 357-474). `files`
are the (fileName, raw contents) pairs surviving the per-target filetype
filter of lines 358-378; `rewrite` stands for the regex-based reference
rewriting of lines 386-441 (no claim depends on its details). A file whose
raw contents contain the cross-directory pattern raises the fatal error of
lines 382-384: the loop stops before adding that file's path to `written`
and before writing it; earlier iterations' effects persist. On the
non-error path the output path is added to `written` first (line 466), then
the existing file (or `""` when absent, lines 467-470) is compared and the
file written only on mismatch (lines 471-473). Returns the filesystem, the
`written` additions, the `fs.writeFile` events, and the error flag. -/
def copySupportFiles (fs : FS) (outDir : String) (rewrite : String → String) :
    List (String × String) → FS × List String × List String × Bool
  | [] => (fs, [], [], false)
  | (name, raw) :: rest =>
    if containsCrossDirRef raw then (fs, [], [], true)
    else
      let contents := rewrite raw
      let outputPath := outDir ++ "/" ++ name
      let oldContents := (fsRead fs outputPath).getD ""
      let fs1 := if oldContents = contents then fs else fsWrite fs outputPath contents
      let evs1 : List String := if oldContents = contents then [] else [outputPath]
      let r := copySupportFiles fs1 outDir rewrite rest
      (r.1, outputPath :: r.2.1, evs1 ++ r.2.2.1, r.2.2.2)

/-- The outcome of the write/synchronize phase. -/
structure SyncResult where
  fs : FS
  written : List String
  writeEvents : List String
  deleted : List String
  invalidTargetFile : Bool
deriving Repr, DecidableEq

/-- The write/synchronize phase of `generateQB` (generate.ts lines 292-489):
snapshot `initialFiles` (line 292), write the rendered module files
(lines 295-349, via `DirBuilder.write`), copy the support files
(lines 357-474, aborting on a cross-directory reference), write
`config.json` unconditionally (lines 476-481), then delete every initial
file absent from `written` (lines 483-489). When the support-file check
aborts the run, the filesystem keeps every write made before the abort, the
metadata file is not written and nothing is deleted. -/
def runWritePhase (fs0 : FS) (moduleFiles : List (String × String))
    (supportIn : List (String × String)) (rewrite : String → String)
    (supportOutDir configPath : String) (target : Target) : SyncResult :=
  let initialFiles := fsPaths fs0
  let m := writeRenderedFiles fs0 moduleFiles
  let s := copySupportFiles m.1 supportOutDir rewrite supportIn
  if s.2.2.2 then
    { fs := s.1
      written := m.2.1 ++ s.2.1
      writeEvents := m.2.2 ++ s.2.2.1
      deleted := []
      invalidTargetFile := true }
  else
    let fs3 := fsWrite s.1 configPath (configFileContents target)
    let written := m.2.1 ++ s.2.1 ++ [configPath]
    let deleted := initialFiles.filter (fun f => !written.contains f)
    { fs := deleted.foldl fsRemove fs3
      written := written
      writeEvents := m.2.2 ++ s.2.2.1 ++ [configPath]
      deleted := deleted
      invalidTargetFile := false }

/-- Does a key start with the dollar character? -/
def startsWithDollar (s : String) : Bool :=
  isCharPre "$".data s.data

/-- Modelled from the spec: `$.util.omitDollarPrefixed` (a reflection runtime
utility outside these sources) copies an object keeping exactly the
properties whose key does not start with `"$"`. -/
def omitDollarPrefixed {V : Type} (o : List (String × V)) : List (String × V) :=
  o.filter (fun kv => !startsWithDollar kv.1)

/-! Lemmas about the surface merger -/

theorem mergeStep_skip (st : MergeState) (sm : SpreadModule)
    (h : spreadSkipped sm = true) : mergeStep st sm = st := by
  simp [mergeStep, h]

theorem mergeStep_active (st : MergeState) (sm : SpreadModule)
    (h : spreadSkipped sm = false) :
    mergeStep st sm =
      { excludedKeys := st.excludedKeys ++ resolvedKeys sm
        spreadTypes := st.spreadTypes ++ [spreadTypeEntry st.excludedKeys sm] } := by
  simp [mergeStep, h]

/-- The excluded-key set only grows along the merge loop. -/
theorem foldl_mergeStep_excluded_mono (l : List SpreadModule) (st : MergeState)
    (k : String) (h : k ∈ st.excludedKeys) :
    k ∈ (l.foldl mergeStep st).excludedKeys := by
  induction l generalizing st with
  | nil => simpa using h
  | cons sm rest ih =>
    simp only [List.foldl_cons]
    apply ih
    by_cases hs : spreadSkipped sm = true
    · simpa [mergeStep_skip st sm hs] using h
    · rw [mergeStep_active st sm (by simpa using hs)]
      simp [h]

/-- The merge loop only appends to `spreadTypes`. -/
theorem foldl_mergeStep_spreadTypes_prefix (l : List SpreadModule) (st : MergeState) :
    ∃ s, (l.foldl mergeStep st).spreadTypes = st.spreadTypes ++ s := by
  induction l generalizing st with
  | nil => exact ⟨[], by simp⟩
  | cons sm rest ih =>
    simp only [List.foldl_cons]
    obtain ⟨s, hs⟩ := ih (mergeStep st sm)
    by_cases hsk : spreadSkipped sm = true
    · exact ⟨s, by rw [hs, mergeStep_skip st sm hsk]⟩
    · refine ⟨spreadTypeEntry st.excludedKeys sm :: s, ?_⟩
      rw [hs, mergeStep_active st sm (by simpa using hsk)]
      simp

/-- A run of skipped entries leaves the merge state unchanged. -/
theorem foldl_mergeStep_skipped_all (l : List SpreadModule) (st : MergeState)
    (h : ∀ sm ∈ l, spreadSkipped sm = true) : l.foldl mergeStep st = st := by
  induction l generalizing st with
  | nil => rfl
  | cons sm rest ih =>
    simp only [List.foldl_cons]
    rw [mergeStep_skip st sm (h sm (by simp))]
    exact ih st (fun x hx => h x (by simp [hx]))

theorem mergeSpreads_append (mn : List String) (l1 l2 : List SpreadModule) :
    mergeSpreads mn (l1 ++ l2) = l2.foldl mergeStep (mergeSpreads mn l1) := by
  simp [mergeSpreads, List.foldl_append]

/-- The loop of lines 207-230 produces exactly the declared-order
enumeration `spreadTypesDeclared`. -/
theorem foldl_mergeStep_types_declared (l : List SpreadModule) (st : MergeState) :
    (l.foldl mergeStep st).spreadTypes =
      st.spreadTypes ++ spreadTypesDeclared st.excludedKeys l := by
  induction l generalizing st with
  | nil => simp [spreadTypesDeclared]
  | cons sm rest ih =>
    by_cases hs : spreadSkipped sm = true
    · simp only [List.foldl_cons, mergeStep_skip st sm hs, spreadTypesDeclared, hs]
      simpa using ih st

    · have hs' : spreadSkipped sm = false := by simpa using hs
      simp only [List.foldl_cons, mergeStep_active st sm hs', spreadTypesDeclared, hs']
      rw [ih]
      simp

theorem mergeSpreads_types_declared (mn : List String) (mods : List SpreadModule) :
    (mergeSpreads mn mods).spreadTypes = spreadTypesDeclared mn mods := by
  simpa using foldl_mergeStep_types_declared mods { excludedKeys := mn, spreadTypes := [] }

/-! Claims about the surface merger -/

/-- Claim C7: the merged aggregate declaration is composed in reverse
declaration order. `spreadTypesDeclared` enumerates one type description per
non-skipped spread module in declaration order, and the rendered components
of the merged intersection type (`spreadTypes.reverse()`, line 236) are its
reverse; the runtime value's spread list (lines 249-258) likewise enumerates
the non-skipped spread modules in the reverse of declaration order. -/
theorem reverse_composition (moduleNames : List String) (mods : List SpreadModule) :
    mergedSpreadTypes moduleNames mods = (spreadTypesDeclared moduleNames mods).reverse
    ∧ runtimeSpreads mods =
        ((mods.filter (fun sm => !spreadSkipped sm)).map spreadExpr).reverse := by
  constructor
  · simp [mergedSpreadTypes, mergeSpreads_types_declared]
  · simp [runtimeSpreads, List.filter_reverse, List.map_reverse]

/-- Claim C6: a `SpreadNamespace` whose backing module is empty is skipped
entirely: the merge state (both the claimed-key set and the pushed type
descriptions) and the runtime spread list are identical to those of the run
without that namespace, so it claims no keys and a later namespace exporting
the same key is not forced to exclude it. -/
theorem empty_module_skip (moduleNames : List String) (pre post : List SpreadModule)
    (E : SpreadModule) (hE : spreadSkipped E = true) :
    mergeSpreads moduleNames (pre ++ E :: post) = mergeSpreads moduleNames (pre ++ post)
    ∧ runtimeSpreads (pre ++ E :: post) = runtimeSpreads (pre ++ post) := by
  constructor
  · rw [show pre ++ E :: post = (pre ++ [E]) ++ post by simp,
      mergeSpreads_append, mergeSpreads_append moduleNames pre post,
      mergeSpreads_append moduleNames pre [E]]
    simp [mergeStep_skip _ E hE]
  · simp [runtimeSpreads, List.reverse_append, List.filter_append, hE]

/-- Closed instance of `empty_module_skip`: an empty `_std` module
contributes nothing. -/
theorem empty_module_skip_witness :
    mergeSpreads ["default", "std"]
        ([⟨"$op", some ["op"], none⟩] ++ ⟨"_std", none, some ⟨true, []⟩⟩ :: [])
      = mergeSpreads ["default", "std"] ([⟨"$op", some ["op"], none⟩] ++ [])
    ∧ runtimeSpreads ([⟨"$op", some ["op"], none⟩] ++ ⟨"_std", none, some ⟨true, []⟩⟩ :: [])
      = runtimeSpreads ([⟨"$op", some ["op"], none⟩] ++ []) :=
  empty_module_skip ["default", "std"] [⟨"$op", some ["op"], none⟩] []
    ⟨"_std", none, some ⟨true, []⟩⟩ (by decide)

/-- Claim C2, counterexample: the running claimed-key set is seeded from
`dir._modules.keys()` (line 207), not empty. With a module graph whose
registered module names include `"op"`, the very first processed namespace
(`$op`, which is never skipped) is generated *with* an `Omit` exclusion
list, refuting "never generated with an Omit exclusion list". -/
theorem claimed_keys_seed_counterexample :
    (mergeSpreads ["op", "default", "std"]
        (spreadModules ⟨false, ["User"]⟩ ⟨false, ["str"]⟩)).spreadTypes.head? =
      some "Omit<typeof $op, \"op\">" := by decide

/-- Claim C2, amended: the claimed-key set is seeded with the module graph's
registered module names rather than empty; the first non-skipped namespace's
description is generated without an `Omit` exclusion list provided none of
its keys equals a registered module name. -/
theorem claimed_keys_seed_amended (moduleNames : List String)
    (pre rest : List SpreadModule) (sm : SpreadModule)
    (hpre : ∀ p ∈ pre, spreadSkipped p = true)
    (hsm : spreadSkipped sm = false)
    (hdisj : ∀ k ∈ resolvedKeys sm, moduleNames.contains k = false) :
    conflictingKeysFor moduleNames sm = []
    ∧ typeStrFor moduleNames sm = "typeof " ++ sm.name
    ∧ (mergeSpreads moduleNames (pre ++ sm :: rest)).spreadTypes.head? =
        some (spreadTypeEntry moduleNames sm) := by
  have hconf : conflictingKeysFor moduleNames sm = [] := by
    simp only [conflictingKeysFor, List.filter_eq_nil_iff]
    intro k hk
    intro hmem
    exact absurd ((hdisj k hk).symm.trans hmem) (by simp)
  refine ⟨hconf, ?_, ?_⟩
  · simp [typeStrFor, hconf]
  · rw [show pre ++ sm :: rest = (pre ++ [sm]) ++ rest by simp, mergeSpreads_append]
    obtain ⟨s, hs⟩ := foldl_mergeStep_spreadTypes_prefix rest
      (mergeSpreads moduleNames (pre ++ [sm]))
    rw [hs, mergeSpreads_append,
      show (mergeSpreads moduleNames pre) =
        { excludedKeys := moduleNames, spreadTypes := [] } from
        foldl_mergeStep_skipped_all pre _ hpre]
    simp [mergeStep_active _ sm hsm]

/-- Closed instance of `claimed_keys_seed_amended`: with no module named
after any of `$op`'s keys, the first entry is `typeof $op` unexcluded. -/
theorem claimed_keys_seed_amended_witness :
    conflictingKeysFor ["default", "std"] ⟨"$op", some ["op"], none⟩ = []
    ∧ typeStrFor ["default", "std"] ⟨"$op", some ["op"], none⟩ = "typeof $op"
    ∧ (mergeSpreads ["default", "std"]
        ([] ++ ⟨"$op", some ["op"], none⟩ ::
          [⟨"_std", none, some ⟨false, ["str"]⟩⟩])).spreadTypes.head? =
        some (spreadTypeEntry ["default", "std"] ⟨"$op", some ["op"], none⟩) :=
  claimed_keys_seed_amended ["default", "std"] [] [⟨"_std", none, some ⟨false, ["str"]⟩⟩]
    ⟨"$op", some ["op"], none⟩ (by decide) (by decide) (by decide)

/-- Claim C5: the `typesByName` index (generate.ts lines 98-104) does retain
every fully-qualified type, but it also retains the synthetic placeholders:
the `continue` guarded by `!type.name.includes("::")` comes after the
assignment, so `"anytype"` (not fully qualified) is present in the index,
contradicting the code's own `// skip "anytype" and "anytuple"` comment and
the claim. -/
theorem types_by_name_retains_placeholder :
    recordGet (buildTypesByName [⟨"std::str"⟩, ⟨"anytype"⟩]) "anytype" = some ⟨"anytype"⟩
    ∧ recordGet (buildTypesByName [⟨"std::str"⟩, ⟨"anytype"⟩]) "std::str" = some ⟨"std::str"⟩
    ∧ isFullyQualified "anytype" = false
    ∧ isFullyQualified "std::str" = true := by decide

/-- Claim C10: the `$syntax` namespace is merged through the dollar-stripping
projection, type-level (`$.util.OmitDollarPrefixed`, line 225) and
value-level (`$.util.omitDollarPrefixed($syntax)`, line 255), while every
other namespace is spread unmodified; and the dollar-stripping projection
never yields a key beginning with `"$"`. -/
theorem dollar_prefixed_omitted :
    (∀ (excluded : List String) (sm : SpreadModule), sm.name = "$syntax" →
        spreadTypeEntry excluded sm =
          "$.util.OmitDollarPrefixed<" ++ typeStrFor excluded sm ++ ">"
        ∧ spreadExpr sm = "$.util.omitDollarPrefixed($syntax)")
    ∧ (∀ (excluded : List String) (sm : SpreadModule), sm.name ≠ "$syntax" →
        spreadTypeEntry excluded sm = typeStrFor excluded sm ∧ spreadExpr sm = sm.name)
    ∧ (∀ (V : Type) (o : List (String × V)) (k : String),
        k ∈ (omitDollarPrefixed o).map (fun kv => kv.1) →
        startsWithDollar k = false) := by
  refine ⟨?_, ?_, ?_⟩
  · intro excluded sm h
    simp [spreadTypeEntry, spreadExpr, h]
  · intro excluded sm h
    simp [spreadTypeEntry, spreadExpr, h]
  · intro V o k hk
    simp only [omitDollarPrefixed, List.mem_map, List.mem_filter] at hk
    obtain ⟨kv, ⟨_, hfil⟩, rfl⟩ := hk
    simpa using hfil

/-- Closed instance of `dollar_prefixed_omitted`. -/
theorem dollar_prefixed_omitted_witness :
    (spreadTypeEntry [] ⟨"$syntax", some [], none⟩ =
        "$.util.OmitDollarPrefixed<" ++ typeStrFor [] ⟨"$syntax", some [], none⟩ ++ ">"
      ∧ spreadExpr ⟨"$syntax", some [], none⟩ = "$.util.omitDollarPrefixed($syntax)")
    ∧ (spreadTypeEntry [] ⟨"$op", some ["op"], none⟩ =
        typeStrFor [] ⟨"$op", some ["op"], none⟩
      ∧ spreadExpr ⟨"$op", some ["op"], none⟩ = "$op")
    ∧ startsWithDollar "select" = false :=
  ⟨dollar_prefixed_omitted.1 [] ⟨"$syntax", some [], none⟩ rfl,
   dollar_prefixed_omitted.2.1 [] ⟨"$op", some ["op"], none⟩ (by decide),
   dollar_prefixed_omitted.2.2 Nat [("$op", 0), ("select", 1)] "select" (by decide)⟩

/-- Claim C1: merge precedence. For spread namespaces `A` declared before `B`,
neither skipped, both exporting `k`: `k` is among `B`'s conflicting keys, so
`B`'s type description is the `Omit` form listing `k`; `B`'s contribution to
`spreadTypes` is computed against the claimed keys accumulated through `A`;
and in the runtime spread list (reverse declaration order) `A`'s spread is
applied after `B`'s. -/
theorem merge_precedence (moduleNames : List String) (pre mid post : List SpreadModule)
    (A B : SpreadModule) (k : String)
    (hA : spreadSkipped A = false) (hB : spreadSkipped B = false)
    (hkA : k ∈ resolvedKeys A) (hkB : k ∈ resolvedKeys B) :
    k ∈ conflictingKeysFor (mergeSpreads moduleNames (pre ++ A :: mid)).excludedKeys B
    ∧ typeStrFor (mergeSpreads moduleNames (pre ++ A :: mid)).excludedKeys B =
        "Omit<typeof " ++ B.name ++ ", " ++
          String.intercalate " | "
            ((conflictingKeysFor
                (mergeSpreads moduleNames (pre ++ A :: mid)).excludedKeys B).map quote)
          ++ ">"
    ∧ (∃ rest,
        (mergeSpreads moduleNames (pre ++ A :: mid ++ B :: post)).spreadTypes =
          (mergeSpreads moduleNames (pre ++ A :: mid)).spreadTypes ++
            spreadTypeEntry (mergeSpreads moduleNames (pre ++ A :: mid)).excludedKeys B
              :: rest)
    ∧ runtimeSpreads (pre ++ A :: mid ++ B :: post) =
        runtimeSpreads post ++ spreadExpr B ::
          (runtimeSpreads mid ++ spreadExpr A :: runtimeSpreads pre) := by
  have hkey : k ∈ (mergeSpreads moduleNames (pre ++ A :: mid)).excludedKeys := by
    rw [show pre ++ A :: mid = (pre ++ [A]) ++ mid by simp, mergeSpreads_append]
    apply foldl_mergeStep_excluded_mono
    rw [mergeSpreads_append, List.foldl_cons, List.foldl_nil, mergeStep_active _ A hA]
    simp [hkA]
  have hconf : k ∈ conflictingKeysFor
      (mergeSpreads moduleNames (pre ++ A :: mid)).excludedKeys B := by
    simp only [conflictingKeysFor, List.mem_filter]
    exact ⟨hkB, by simpa using List.elem_iff.mpr hkey⟩
  have hne : (conflictingKeysFor
      (mergeSpreads moduleNames (pre ++ A :: mid)).excludedKeys B).isEmpty = false := by
    rcases h : conflictingKeysFor
        (mergeSpreads moduleNames (pre ++ A :: mid)).excludedKeys B with _ | ⟨a, l⟩
    · rw [h] at hconf
      simp at hconf
    · rfl
  refine ⟨hconf, ?_, ?_, ?_⟩
  · simp [typeStrFor, hne]
  · rw [show pre ++ A :: mid ++ B :: post = (pre ++ A :: mid) ++ B :: post by simp,
      mergeSpreads_append, List.foldl_cons]
    obtain ⟨s, hs⟩ := foldl_mergeStep_spreadTypes_prefix post
      (mergeStep (mergeSpreads moduleNames (pre ++ A :: mid)) B)
    refine ⟨s, ?_⟩
    rw [hs, mergeStep_active _ B hB]
    simp
  · simp [runtimeSpreads, List.reverse_append, List.filter_append, hA, hB]

/-! Lemmas about the filesystem model -/

theorem find?_update_map (fs : FS) (p c : String) :
    (fs.map (fun e => if e.1 = p then (p, c) else e)).find? (fun e => e.1 = p) =
      if fs.any (fun e => e.1 = p) then some (p, c) else none := by
  induction fs with
  | nil => rfl
  | cons e rest ih =>
    simp only [List.map_cons, List.any_cons]
    by_cases he : e.1 = p
    · rw [if_pos he, List.find?_cons_of_pos _ (by simp)]
      simp [he]
    · rw [if_neg he, List.find?_cons_of_neg _ (by simpa using he), ih]
      have hd : decide (e.1 = p) = false := by simpa using he
      simp only [hd, Bool.false_or]

theorem find?_update_map_other (fs : FS) (p c q : String) (hq : q ≠ p) :
    (fs.map (fun e => if e.1 = p then (p, c) else e)).find? (fun e => e.1 = q) =
      fs.find? (fun e => e.1 = q) := by
  induction fs with
  | nil => rfl
  | cons e rest ih =>
    simp only [List.map_cons]
    by_cases he : e.1 = p
    · have h1 : ¬((p, c).1 = q) := fun hc => hq hc.symm
      have h2 : ¬(e.1 = q) := fun hc => hq (hc ▸ he ▸ rfl)
      rw [if_pos he, List.find?_cons_of_neg _ (by simpa using h1),
        List.find?_cons_of_neg _ (by simpa using h2)]
      exact ih
    · rw [if_neg he]
      by_cases heq : e.1 = q
      · rw [List.find?_cons_of_pos _ (by simpa using heq),
          List.find?_cons_of_pos _ (by simpa using heq)]
      · rw [List.find?_cons_of_neg _ (by simpa using heq),
          List.find?_cons_of_neg _ (by simpa using heq)]
        exact ih

theorem fsRead_fsWrite_self (fs : FS) (p c : String) :
    fsRead (fsWrite fs p c) p = some c := by
  unfold fsRead fsWrite
  by_cases h : fs.any (fun e => e.1 = p)
  · rw [if_pos h, find?_update_map, if_pos h]
    rfl
  · rw [if_neg h, List.find?_append]
    have hf : fs.any (fun e => e.1 = p) = false := by
      cases hx : fs.any (fun e => e.1 = p)
      · rfl
      · exact absurd hx h
    have hnone : fs.find? (fun e => decide (e.1 = p)) = none := by
      apply List.find?_eq_none.mpr
      intro x hx
      exact List.any_eq_false.mp hf x hx
    rw [hnone]
    simp

theorem fsRead_fsWrite_other (fs : FS) (p c q : String) (hq : q ≠ p) :
    fsRead (fsWrite fs p c) q = fsRead fs q := by
  unfold fsRead fsWrite
  by_cases h : fs.any (fun e => e.1 = p)
  · rw [if_pos h, find?_update_map_other fs p c q hq]
  · rw [if_neg h, List.find?_append]
    have h1 : ¬((p, c).1 = q) := fun hc => hq hc.symm
    have hnone : List.find? (fun e => decide (e.1 = q)) [(p, c)] = none := by
      apply List.find?_eq_none.mpr
      intro x hx
      have : x = (p, c) := by simpa using hx
      subst this
      simpa using h1
    rw [hnone]
    cases fs.find? fun e => decide (e.1 = q) <;> rfl

theorem fsRead_fsRemove_self (fs : FS) (p : String) :
    fsRead (fsRemove fs p) p = none := by
  unfold fsRead fsRemove
  have : (fs.filter (fun e => e.1 ≠ p)).find? (fun e => e.1 = p) = none := by
    apply List.find?_eq_none.mpr
    intro x hx
    have := (List.mem_filter.mp hx).2
    simpa using this
  simp [this]

theorem fsRead_fsRemove_other (fs : FS) (p q : String) (hq : q ≠ p) :
    fsRead (fsRemove fs p) q = fsRead fs q := by
  unfold fsRead fsRemove
  induction fs with
  | nil => rfl
  | cons e rest ih =>
    by_cases hep : e.1 = p
    · have h2 : ¬(e.1 = q) := fun hc => hq (hc ▸ hep ▸ rfl)
      rw [List.filter_cons_of_neg (by simpa using hep),
        List.find?_cons_of_neg _ (by simpa using h2)]
      exact ih
    · rw [List.filter_cons_of_pos (by simpa using hep)]
      by_cases heq : e.1 = q
      · rw [List.find?_cons_of_pos _ (by simpa using heq),
          List.find?_cons_of_pos _ (by simpa using heq)]
      · rw [List.find?_cons_of_neg _ (by simpa using heq),
          List.find?_cons_of_neg _ (by simpa using heq)]
        exact ih

theorem fsRead_foldl_fsRemove_not_mem (l : List String) (fs : FS) (q : String)
    (hq : q ∉ l) : fsRead (l.foldl fsRemove fs) q = fsRead fs q := by
  induction l generalizing fs with
  | nil => rfl
  | cons a l ih =>
    simp only [List.foldl_cons]
    rw [ih (fsRemove fs a) (fun h => hq (List.mem_cons_of_mem a h)),
      fsRead_fsRemove_other fs a q (fun h => hq (h ▸ List.mem_cons_self a l))]

theorem fsRead_foldl_fsRemove_mem (l : List String) (fs : FS) (q : String)
    (hq : q ∈ l) : fsRead (l.foldl fsRemove fs) q = none := by
  induction l generalizing fs with
  | nil => simp at hq
  | cons a l ih =>
    simp only [List.foldl_cons]
    by_cases hql : q ∈ l
    · exact ih (fsRemove fs a) hql
    · have hqa : q = a := by
        rcases List.mem_cons.mp hq with h | h
        · exact h
        · exact absurd h hql
      subst hqa
      rw [fsRead_foldl_fsRemove_not_mem l (fsRemove fs q) q hql]
      exact fsRead_fsRemove_self fs q

/-- In a filesystem with distinct paths, every entry is what a read at its
path returns. -/
theorem fsRead_of_mem (fs : FS) (hnd : (fsPaths fs).Nodup) (e : String × String)
    (he : e ∈ fs) : fsRead fs e.1 = some e.2 := by
  induction fs with
  | nil => cases he
  | cons a rest ih =>
    rcases List.mem_cons.mp he with h | h
    · subst h
      simp [fsRead]
    · have hpaths : (fsPaths rest).Nodup := by
        have : fsPaths (a :: rest) = a.1 :: fsPaths rest := rfl
        rw [this] at hnd
        exact hnd.of_cons

      have hane : ¬(a.1 = e.1) := by
        intro hc
        have : fsPaths (a :: rest) = a.1 :: fsPaths rest := rfl
        rw [this] at hnd
        have hmem : e.1 ∈ fsPaths rest := List.mem_map.mpr ⟨e, h, rfl⟩
        exact (List.nodup_cons.mp hnd).1 (hc ▸ hmem)
      rw [fsRead] at ih ⊢
      simp only [List.find?_cons, hane]
      simpa [hane] using ih hpaths h

theorem fsWrite_of_read_eq (fs : FS) (p c : String) (hnd : (fsPaths fs).Nodup)
    (h : fsRead fs p = some c) : fsWrite fs p c = fs := by
  have hany : fs.any (fun e => e.1 = p) = true := by
    rcases hfind : fs.find? (fun e => decide (e.1 = p)) with _ | e
    · rw [fsRead, hfind] at h
      simp at h
    · have hpe := List.find?_some hfind
      have hme := List.mem_of_find?_eq_some hfind
      exact List.any_eq_true.mpr ⟨e, hme, hpe⟩
  unfold fsWrite
  rw [if_pos hany]
  have key : ∀ e ∈ fs, (if e.1 = p then (p, c) else e) = e := by
    intro e he
    by_cases hep : e.1 = p
    · rw [if_pos hep]
      have h2 : fsRead fs p = some e.2 := by
        rw [← hep]
        exact fsRead_of_mem fs hnd e he
      rw [h] at h2
      have hc : c = e.2 := by injection h2
      rw [hc, ← hep]
    · rw [if_neg hep]
  rw [List.map_congr_left key, List.map_id']

theorem fsPaths_update_map (fs : FS) (p c : String) :
    fsPaths (fs.map (fun e => if e.1 = p then (p, c) else e)) = fsPaths fs := by
  unfold fsPaths
  rw [List.map_map]
  apply List.map_congr_left
  intro e _
  by_cases h : e.1 = p <;> simp [h]

theorem fsPaths_fsWrite_nodup (fs : FS) (p c : String)
    (hnd : (fsPaths fs).Nodup) : (fsPaths (fsWrite fs p c)).Nodup := by
  unfold fsWrite
  by_cases h : fs.any (fun e => e.1 = p)
  · rw [if_pos h, fsPaths_update_map]
    exact hnd
  · rw [if_neg h]
    have hf : fs.any (fun e => e.1 = p) = false := by
      cases hx : fs.any (fun e => e.1 = p)
      · rfl
      · exact absurd hx h
    have hnp : p ∉ fsPaths fs := by
      intro hc
      obtain ⟨e, he, hep⟩ := List.mem_map.mp hc
      exact (List.any_eq_false.mp hf) e he (by simpa using hep)
    have hps : fsPaths (fs ++ [(p, c)]) = fsPaths fs ++ [p] := by
      simp [fsPaths]
    rw [hps, List.nodup_append]
    refine ⟨hnd, List.nodup_singleton p, ?_⟩
    intro a ha hb
    have : a = p := by simpa using hb
    exact hnp (this ▸ ha)

theorem mem_fsPaths_fsWrite (fs : FS) (p c q : String)
    (h : q ∈ fsPaths (fsWrite fs p c)) : q ∈ fsPaths fs ∨ q = p := by
  unfold fsWrite at h
  by_cases ha : fs.any (fun e => e.1 = p)
  · rw [if_pos ha, fsPaths_update_map] at h
    exact Or.inl h
  · rw [if_neg ha] at h
    have : fsPaths (fs ++ [(p, c)]) = fsPaths fs ++ [p] := by simp [fsPaths]
    rw [this] at h
    rcases List.mem_append.mp h with h | h
    · exact Or.inl h
    · exact Or.inr (by simpa using h)

theorem fsPaths_fsRemove_nodup (fs : FS) (p : String)
    (hnd : (fsPaths fs).Nodup) : (fsPaths (fsRemove fs p)).Nodup := by
  have hsub : (fsPaths (fsRemove fs p)).Sublist (fsPaths fs) := by
    unfold fsPaths fsRemove
    exact List.Sublist.map (fun e => e.1) (List.filter_sublist fs)
  exact hsub.nodup hnd

theorem fsPaths_foldl_fsRemove_nodup (l : List String) (fs : FS)
    (hnd : (fsPaths fs).Nodup) : (fsPaths (l.foldl fsRemove fs)).Nodup := by
  induction l generalizing fs with
  | nil => exact hnd
  | cons a l ih => exact ih (fsRemove fs a) (fsPaths_fsRemove_nodup fs a hnd)

theorem mem_fsPaths_foldl_fsRemove (l : List String) :
    ∀ (fs : FS) (q : String), q ∈ fsPaths (l.foldl fsRemove fs) →
      q ∈ fsPaths fs ∧ q ∉ l := by
  induction l with
  | nil =>
    intro fs q h
    exact ⟨h, by simp⟩
  | cons a t ih =>
    intro fs q h
    simp only [List.foldl_cons] at h
    obtain ⟨h1, h2⟩ := ih _ q h
    obtain ⟨e, he, hq⟩ := List.mem_map.mp h1
    have hmf := List.mem_filter.mp he
    have he2 : e.1 ≠ a := by simpa using hmf.2
    have hqa : q ≠ a := fun hc => he2 (hq.trans hc)
    exact ⟨List.mem_map.mpr ⟨e, hmf.1, hq⟩, by simp [hqa, h2]⟩

/-! Lemmas about the module-file write phase -/

theorem wrf_written (files : List (String × String)) :
    ∀ (fs : FS), (writeRenderedFiles fs files).2.1 = files.map (fun f => f.1) := by
  induction files with
  | nil => intro fs; rfl
  | cons f rest ih =>
    obtain ⟨p, c⟩ := f
    intro fs
    simp only [writeRenderedFiles, List.map_cons]
    rw [ih]

theorem wrf_untouched (files : List (String × String)) :
    ∀ (fs : FS) (q : String), q ∉ files.map (fun f => f.1) →
      fsRead (writeRenderedFiles fs files).1 q = fsRead fs q := by
  induction files with
  | nil => intro fs q _; rfl
  | cons f rest ih =>
    obtain ⟨p, c⟩ := f
    intro fs q hq
    have hqp : q ≠ p := fun h => hq (by simp [h])
    have hqrest : q ∉ rest.map (fun f => f.1) := fun h => hq (by simp [h])
    simp only [writeRenderedFiles]
    rw [ih _ q hqrest]
    rcases hr : fsRead fs p with _ | old
    · simp only [hr]
      exact fsRead_fsWrite_other fs p c q hqp
    · simp only [hr]
      by_cases hoc : old = c
      · simp only [if_pos hoc]
      · simp only [if_neg hoc]
        exact fsRead_fsWrite_other fs p c q hqp

theorem wrf_read_back (files : List (String × String)) :
    ∀ (fs : FS), (files.map (fun f => f.1)).Nodup →
      ∀ f ∈ files, fsRead (writeRenderedFiles fs files).1 f.1 = some f.2 := by
  induction files with
  | nil =>
    intro fs _ f hf
    cases hf
  | cons g rest ih =>
    obtain ⟨p, c⟩ := g
    intro fs hnd f hf
    have hnd2 : (p :: rest.map (fun f => f.1)).Nodup := by simpa using hnd
    rcases List.mem_cons.mp hf with h | h
    · subst h
      have hp_not : (p : String) ∉ rest.map (fun f => f.1) :=
        (List.nodup_cons.mp hnd2).1
      simp only [writeRenderedFiles]
      rw [wrf_untouched rest _ p hp_not]
      rcases hr : fsRead fs p with _ | old
      · simp only [hr]
        exact fsRead_fsWrite_self fs p c
      · simp only [hr]
        by_cases hoc : old = c
        · simp only [if_pos hoc]
          rw [hr, hoc]
        · simp only [if_neg hoc]
          exact fsRead_fsWrite_self fs p c
    · simp only [writeRenderedFiles]
      exact ih _ (List.nodup_cons.mp hnd2).2 f h

theorem wrf_noop (files : List (String × String)) :
    ∀ (fs : FS), (∀ f ∈ files, fsRead fs f.1 = some f.2) →
      writeRenderedFiles fs files = (fs, files.map (fun f => f.1), []) := by
  induction files with
  | nil => intro fs _; rfl
  | cons g rest ih =>
    obtain ⟨p, c⟩ := g
    intro fs h
    have hp := h (p, c) (by simp)
    simp only [writeRenderedFiles, hp, if_pos]
    rw [ih fs (fun f hf => h f (by simp [hf]))]
    rfl

theorem wrf_paths (files : List (String × String)) :
    ∀ (fs : FS) (q : String), q ∈ fsPaths (writeRenderedFiles fs files).1 →
      q ∈ fsPaths fs ∨ q ∈ files.map (fun f => f.1) := by
  induction files with
  | nil => intro fs q h; exact Or.inl h
  | cons g rest ih =>
    obtain ⟨p, c⟩ := g
    intro fs q h
    simp only [writeRenderedFiles] at h
    have hstep : ∀ (st : FS × List String), (st.1 = fs ∨ st.1 = fsWrite fs p c) →
        q ∈ fsPaths (writeRenderedFiles st.1 rest).1 →
        q ∈ fsPaths fs ∨ q ∈ List.map (fun f => f.1) ((p, c) :: rest) := by
      intro st hst hq
      rcases ih _ q hq with h1 | h1
      · rcases hst with hst | hst
        · rw [hst] at h1
          exact Or.inl h1
        · rw [hst] at h1
          rcases mem_fsPaths_fsWrite fs p c q h1 with h2 | h2
          · exact Or.inl h2
          · exact Or.inr (by simp [h2])
      · exact Or.inr (by simp [h1])
    apply hstep _ _ h
    rcases fsRead fs p with _ | old
    · exact Or.inr rfl
    · by_cases hoc : old = c
      · left
        simp [hoc]
      · right
        simp [hoc]

theorem wrf_nodup (files : List (String × String)) :
    ∀ (fs : FS), (fsPaths fs).Nodup →
      (fsPaths (writeRenderedFiles fs files).1).Nodup := by
  induction files with
  | nil => intro fs h; exact h
  | cons g rest ih =>
    obtain ⟨p, c⟩ := g
    intro fs h
    simp only [writeRenderedFiles]
    apply ih
    rcases hr : fsRead fs p with _ | old
    · simp only [hr]
      exact fsPaths_fsWrite_nodup fs p c h
    · simp only [hr]
      by_cases hoc : old = c
      · simp only [if_pos hoc]
        exact h
      · simp only [if_neg hoc]
        exact fsPaths_fsWrite_nodup fs p c h

/-! Lemmas about the support-file copy phase -/

/-- One-step unfolding of `copySupportFiles` with the conditionals exposed. -/
theorem csf_cons_eq (outDir : String) (rewrite : String → String)
    (name raw : String) (rest : List (String × String)) (fs : FS) :
    copySupportFiles fs outDir rewrite ((name, raw) :: rest) =
      if containsCrossDirRef raw = true then (fs, [], [], true)
      else
        ((copySupportFiles
            (if (fsRead fs (outDir ++ "/" ++ name)).getD "" = rewrite raw then fs
             else fsWrite fs (outDir ++ "/" ++ name) (rewrite raw))
            outDir rewrite rest).1,
         (outDir ++ "/" ++ name) ::
           (copySupportFiles
            (if (fsRead fs (outDir ++ "/" ++ name)).getD "" = rewrite raw then fs
             else fsWrite fs (outDir ++ "/" ++ name) (rewrite raw))
            outDir rewrite rest).2.1,
         (if (fsRead fs (outDir ++ "/" ++ name)).getD "" = rewrite raw
          then ([] : List String) else [outDir ++ "/" ++ name]) ++
           (copySupportFiles
            (if (fsRead fs (outDir ++ "/" ++ name)).getD "" = rewrite raw then fs
             else fsWrite fs (outDir ++ "/" ++ name) (rewrite raw))
            outDir rewrite rest).2.2.1,
         (copySupportFiles
            (if (fsRead fs (outDir ++ "/" ++ name)).getD "" = rewrite raw then fs
             else fsWrite fs (outDir ++ "/" ++ name) (rewrite raw))
            outDir rewrite rest).2.2.2) := rfl

theorem csf_cons_clean (outDir : String) (rewrite : String → String)
    (name raw : String) (rest : List (String × String)) (fs : FS)
    (hc : containsCrossDirRef raw = false) :
    copySupportFiles fs outDir rewrite ((name, raw) :: rest) =
      ((copySupportFiles
          (if (fsRead fs (outDir ++ "/" ++ name)).getD "" = rewrite raw then fs
           else fsWrite fs (outDir ++ "/" ++ name) (rewrite raw)) outDir rewrite rest).1,
       (outDir ++ "/" ++ name) ::
         (copySupportFiles
          (if (fsRead fs (outDir ++ "/" ++ name)).getD "" = rewrite raw then fs
           else fsWrite fs (outDir ++ "/" ++ name) (rewrite raw)) outDir rewrite rest).2.1,
       (if (fsRead fs (outDir ++ "/" ++ name)).getD "" = rewrite raw then ([] : List String)
        else [outDir ++ "/" ++ name]) ++
         (copySupportFiles
          (if (fsRead fs (outDir ++ "/" ++ name)).getD "" = rewrite raw then fs
           else fsWrite fs (outDir ++ "/" ++ name) (rewrite raw)) outDir rewrite rest).2.2.1,
       (copySupportFiles
          (if (fsRead fs (outDir ++ "/" ++ name)).getD "" = rewrite raw then fs
           else fsWrite fs (outDir ++ "/" ++ name) (rewrite raw)) outDir rewrite rest).2.2.2) := by
  rw [csf_cons_eq, if_neg (by simp [hc])]

theorem csf_cons_dirty (outDir : String) (rewrite : String → String)
    (name raw : String) (rest : List (String × String)) (fs : FS)
    (hc : containsCrossDirRef raw = true) :
    copySupportFiles fs outDir rewrite ((name, raw) :: rest) = (fs, [], [], true) := by
  rw [csf_cons_eq, if_pos (by simp [hc])]

theorem csf_err_false (outDir : String) (rewrite : String → String)
    (files : List (String × String)) :
    ∀ (fs : FS), (∀ f ∈ files, containsCrossDirRef f.2 = false) →
      (copySupportFiles fs outDir rewrite files).2.2.2 = false := by
  induction files with
  | nil => intro fs _; rfl
  | cons g rest ih =>
    obtain ⟨name, raw⟩ := g
    intro fs h
    rw [csf_cons_clean outDir rewrite name raw rest fs (h (name, raw) (by simp))]
    exact ih _ (fun f hf => h f (by simp [hf]))

theorem csf_written (outDir : String) (rewrite : String → String)
    (files : List (String × String)) :
    ∀ (fs : FS), (∀ f ∈ files, containsCrossDirRef f.2 = false) →
      (copySupportFiles fs outDir rewrite files).2.1 =
        files.map (fun f => outDir ++ "/" ++ f.1) := by
  induction files with
  | nil => intro fs _; rfl
  | cons g rest ih =>
    obtain ⟨name, raw⟩ := g
    intro fs h
    rw [csf_cons_clean outDir rewrite name raw rest fs (h (name, raw) (by simp))]
    simp only [List.map_cons]
    rw [ih _ (fun f hf => h f (by simp [hf]))]

theorem csf_untouched (outDir : String) (rewrite : String → String)
    (files : List (String × String)) :
    ∀ (fs : FS) (q : String), (∀ f ∈ files, containsCrossDirRef f.2 = false) →
      q ∉ files.map (fun f => outDir ++ "/" ++ f.1) →
      fsRead (copySupportFiles fs outDir rewrite files).1 q = fsRead fs q := by
  induction files with
  | nil => intro fs q _ _; rfl
  | cons g rest ih =>
    obtain ⟨name, raw⟩ := g
    intro fs q h hq
    have hqp : q ≠ outDir ++ "/" ++ name := fun hc => hq (by simp [hc])
    have hqrest : q ∉ rest.map (fun f => outDir ++ "/" ++ f.1) :=
      fun hc => hq (by simp [hc])
    rw [csf_cons_clean outDir rewrite name raw rest fs (h (name, raw) (by simp))]
    rw [ih _ q (fun f hf => h f (by simp [hf])) hqrest]
    by_cases hoc : (fsRead fs (outDir ++ "/" ++ name)).getD "" = rewrite raw
    · rw [if_pos hoc]
    · rw [if_neg hoc]
      exact fsRead_fsWrite_other fs (outDir ++ "/" ++ name) (rewrite raw) q hqp

/-- After the copy loop, the on-disk contents at each support output path,
read through the same `getD ""` convention the loop itself uses, equal the
rewritten contents. -/
theorem csf_getD (outDir : String) (rewrite : String → String)
    (files : List (String × String)) :
    ∀ (fs : FS), (∀ f ∈ files, containsCrossDirRef f.2 = false) →
      (files.map (fun f => outDir ++ "/" ++ f.1)).Nodup →
      ∀ f ∈ files,
        (fsRead (copySupportFiles fs outDir rewrite files).1
          (outDir ++ "/" ++ f.1)).getD "" = rewrite f.2 := by
  induction files with
  | nil =>
    intro fs _ _ f hf
    cases hf
  | cons g rest ih =>
    obtain ⟨name, raw⟩ := g
    intro fs h hnd f hf
    have hnd2 : ((outDir ++ "/" ++ name) ::
        rest.map (fun f => outDir ++ "/" ++ f.1)).Nodup := by simpa using hnd
    rw [csf_cons_clean outDir rewrite name raw rest fs (h (name, raw) (by simp))]
    rcases List.mem_cons.mp hf with hh | hh
    · subst hh
      rw [csf_untouched outDir rewrite rest _ (outDir ++ "/" ++ name)
        (fun f hf2 => h f (by simp [hf2])) (List.nodup_cons.mp hnd2).1]
      by_cases hoc : (fsRead fs (outDir ++ "/" ++ name)).getD "" = rewrite raw
      · rw [if_pos hoc]
        exact hoc
      · rw [if_neg hoc, fsRead_fsWrite_self]
        rfl
    · exact ih _ (fun f hf2 => h f (by simp [hf2])) (List.nodup_cons.mp hnd2).2 f hh

theorem csf_noop (outDir : String) (rewrite : String → String)
    (files : List (String × String)) :
    ∀ (fs : FS), (∀ f ∈ files, containsCrossDirRef f.2 = false) →
      (∀ f ∈ files, (fsRead fs (outDir ++ "/" ++ f.1)).getD "" = rewrite f.2) →
      copySupportFiles fs outDir rewrite files =
        (fs, files.map (fun f => outDir ++ "/" ++ f.1), [], false) := by
  induction files with
  | nil => intro fs _ _; rfl
  | cons g rest ih =>
    obtain ⟨name, raw⟩ := g
    intro fs h hsame
    rw [csf_cons_clean outDir rewrite name raw rest fs (h (name, raw) (by simp))]
    simp only [if_pos (hsame (name, raw) (by simp))]
    rw [ih fs (fun f hf => h f (by simp [hf])) (fun f hf => hsame f (by simp [hf]))]
    rfl

theorem csf_paths (outDir : String) (rewrite : String → String)
    (files : List (String × String)) :
    ∀ (fs : FS) (q : String), q ∈ fsPaths (copySupportFiles fs outDir rewrite files).1 →
      q ∈ fsPaths fs ∨ q ∈ files.map (fun f => outDir ++ "/" ++ f.1) := by
  induction files with
  | nil => intro fs q h; exact Or.inl h
  | cons g rest ih =>
    obtain ⟨name, raw⟩ := g
    intro fs q h
    by_cases hc : containsCrossDirRef raw = true
    · rw [csf_cons_dirty outDir rewrite name raw rest fs hc] at h
      exact Or.inl h
    · rw [csf_cons_clean outDir rewrite name raw rest fs (by
        cases hx : containsCrossDirRef raw
        · rfl
        · exact absurd hx hc)] at h
      rcases ih _ q h with h1 | h1
      · by_cases hoc : (fsRead fs (outDir ++ "/" ++ name)).getD "" = rewrite raw
        · rw [if_pos hoc] at h1
          exact Or.inl h1
        · rw [if_neg hoc] at h1
          rcases mem_fsPaths_fsWrite fs (outDir ++ "/" ++ name) (rewrite raw) q h1
            with h2 | h2
          · exact Or.inl h2
          · exact Or.inr (by simp [h2])
      · exact Or.inr (by simp [h1])

theorem csf_nodup (outDir : String) (rewrite : String → String)
    (files : List (String × String)) :
    ∀ (fs : FS), (fsPaths fs).Nodup →
      (fsPaths (copySupportFiles fs outDir rewrite files).1).Nodup := by
  induction files with
  | nil => intro fs h; exact h
  | cons g rest ih =>
    obtain ⟨name, raw⟩ := g
    intro fs h
    by_cases hc : containsCrossDirRef raw = true
    · rw [csf_cons_dirty outDir rewrite name raw rest fs hc]
      exact h
    · rw [csf_cons_clean outDir rewrite name raw rest fs (by
        cases hx : containsCrossDirRef raw
        · rfl
        · exact absurd hx hc)]
      apply ih
      by_cases hoc : (fsRead fs (outDir ++ "/" ++ name)).getD "" = rewrite raw
      · rw [if_pos hoc]
        exact h
      · rw [if_neg hoc]
        exact fsPaths_fsWrite_nodup fs (outDir ++ "/" ++ name) (rewrite raw) h

/-- When the support files are a clean prefix followed by a file containing
the disallowed pattern, the copy loop aborts: the filesystem, `written`
additions and write events are exactly those of the clean prefix, and the
error flag is raised. -/
theorem csf_error_split (outDir : String) (rewrite : String → String)
    (good : List (String × String)) :
    ∀ (fs : FS) (bad : String × String) (rest : List (String × String)),
      (∀ f ∈ good, containsCrossDirRef f.2 = false) →
      containsCrossDirRef bad.2 = true →
      copySupportFiles fs outDir rewrite (good ++ bad :: rest) =
        ((copySupportFiles fs outDir rewrite good).1,
         (copySupportFiles fs outDir rewrite good).2.1,
         (copySupportFiles fs outDir rewrite good).2.2.1,
         true) := by
  induction good with
  | nil =>
    intro fs bad rest _ hbad
    obtain ⟨bn, br⟩ := bad
    simp only [List.nil_append]
    rw [csf_cons_dirty outDir rewrite bn br rest fs hbad]
    rfl
  | cons g gs ih =>
    obtain ⟨name, raw⟩ := g
    intro fs bad rest hg hbad
    have hc : containsCrossDirRef raw = false := hg (name, raw) (by simp)
    simp only [List.cons_append]
    rw [csf_cons_clean outDir rewrite name raw (gs ++ bad :: rest) fs hc,
      csf_cons_clean outDir rewrite name raw gs fs hc,
      ih _ bad rest (fun f hf => hg f (by simp [hf])) hbad]

/-! Lemmas about the whole write phase -/

theorem runWritePhase_err_eq (fs0 : FS) (mf si : List (String × String))
    (rewrite : String → String) (od cp : String) (t : Target)
    (herr : (copySupportFiles (writeRenderedFiles fs0 mf).1 od rewrite si).2.2.2 = true) :
    runWritePhase fs0 mf si rewrite od cp t =
      { fs := (copySupportFiles (writeRenderedFiles fs0 mf).1 od rewrite si).1
        written := (writeRenderedFiles fs0 mf).2.1 ++
          (copySupportFiles (writeRenderedFiles fs0 mf).1 od rewrite si).2.1
        writeEvents := (writeRenderedFiles fs0 mf).2.2 ++
          (copySupportFiles (writeRenderedFiles fs0 mf).1 od rewrite si).2.2.1
        deleted := []
        invalidTargetFile := true } := by
  simp only [runWritePhase, herr, if_true]

theorem runWritePhase_ok_eq (fs0 : FS) (mf si : List (String × String))
    (rewrite : String → String) (od cp : String) (t : Target)
    (herr : (copySupportFiles (writeRenderedFiles fs0 mf).1 od rewrite si).2.2.2 = false) :
    runWritePhase fs0 mf si rewrite od cp t =
      { fs := ((fsPaths fs0).filter (fun f =>
            !((writeRenderedFiles fs0 mf).2.1 ++
              (copySupportFiles (writeRenderedFiles fs0 mf).1 od rewrite si).2.1 ++
              [cp]).contains f)).foldl fsRemove
          (fsWrite (copySupportFiles (writeRenderedFiles fs0 mf).1 od rewrite si).1 cp
            (configFileContents t))
        written := (writeRenderedFiles fs0 mf).2.1 ++
          (copySupportFiles (writeRenderedFiles fs0 mf).1 od rewrite si).2.1 ++ [cp]
        writeEvents := (writeRenderedFiles fs0 mf).2.2 ++
          (copySupportFiles (writeRenderedFiles fs0 mf).1 od rewrite si).2.2.1 ++ [cp]
        deleted := (fsPaths fs0).filter (fun f =>
          !((writeRenderedFiles fs0 mf).2.1 ++
            (copySupportFiles (writeRenderedFiles fs0 mf).1 od rewrite si).2.1 ++
            [cp]).contains f)
        invalidTargetFile := false } := by
  simp only [runWritePhase, herr, Bool.false_eq_true, if_false]

/-! Claims about the write phase -/

/-- Claim C8: after a successful run, exactly the initial files absent from
`written` are deleted (and they are gone from the final filesystem); a run
aborted by the support-file check deletes nothing. -/
theorem vestigial_deletion (fs0 : FS) (mf si : List (String × String))
    (rewrite : String → String) (od cp : String) (t : Target) :
    ((runWritePhase fs0 mf si rewrite od cp t).invalidTargetFile = false →
      (runWritePhase fs0 mf si rewrite od cp t).deleted =
        (fsPaths fs0).filter (fun f =>
          !(runWritePhase fs0 mf si rewrite od cp t).written.contains f)
      ∧ ∀ f ∈ (runWritePhase fs0 mf si rewrite od cp t).deleted,
          fsRead (runWritePhase fs0 mf si rewrite od cp t).fs f = none)
    ∧ ((runWritePhase fs0 mf si rewrite od cp t).invalidTargetFile = true →
      (runWritePhase fs0 mf si rewrite od cp t).deleted = []) := by
  by_cases herr :
      (copySupportFiles (writeRenderedFiles fs0 mf).1 od rewrite si).2.2.2 = true
  · rw [runWritePhase_err_eq fs0 mf si rewrite od cp t herr]
    constructor
    · intro hfalse
      cases hfalse
    · intro _
      rfl
  · have herr2 :
        (copySupportFiles (writeRenderedFiles fs0 mf).1 od rewrite si).2.2.2 = false := by
      cases hx : (copySupportFiles (writeRenderedFiles fs0 mf).1 od rewrite si).2.2.2
      · rfl
      · exact absurd hx herr
    rw [runWritePhase_ok_eq fs0 mf si rewrite od cp t herr2]
    constructor
    · intro _
      refine ⟨rfl, ?_⟩
      intro f hf
      exact fsRead_foldl_fsRemove_mem _ _ f hf
    · intro htrue
      cases htrue

/-- Closed instance of `vestigial_deletion`: a stale file not regenerated by
the run is deleted. -/
theorem vestigial_deletion_witness :
    (runWritePhase [("out/old.ts", "x")] [("out/m.ts", "y")] [] (fun s => s)
        "out/syntax" "out/config.json" Target.ts).deleted = ["out/old.ts"] :=
  ((vestigial_deletion [("out/old.ts", "x")] [("out/m.ts", "y")] [] (fun s => s)
      "out/syntax" "out/config.json" Target.ts).1 (by decide)).1.trans (by decide)

/-- Claim C4, counterexample: a support file containing the disallowed
cross-directory pattern makes the run abort, but *after* the module render
phase has already mutated the output directory: the generated module file is
on disk and appears among the write events, refuting "halts before any
mutation". -/
theorem invalid_target_counterexample :
    (runWritePhase [] [("out/m.ts", "const a = 1;")]
        [("bad.ts", "const r = require(\"edgedb/dist/reflection\");")] (fun s => s)
        "out/syntax" "out/config.json" Target.ts).invalidTargetFile = true
    ∧ fsRead (runWritePhase [] [("out/m.ts", "const a = 1;")]
        [("bad.ts", "const r = require(\"edgedb/dist/reflection\");")] (fun s => s)
        "out/syntax" "out/config.json" Target.ts).fs "out/m.ts" = some "const a = 1;"
    ∧ (runWritePhase [] [("out/m.ts", "const a = 1;")]
        [("bad.ts", "const r = require(\"edgedb/dist/reflection\");")] (fun s => s)
        "out/syntax" "out/config.json" Target.ts).writeEvents = ["out/m.ts"] := by
  decide

/-- Claim C4, amended: when a support file contains the disallowed pattern,
the run halts with the invalid-target error before the metadata file is
written, before any deletion, and before the offending or any later support
file is copied — but after the generated module files and the earlier
(clean) support files have been written; the filesystem at abort is exactly
the one produced by the module render phase plus the clean prefix of the
support copy loop. -/
theorem invalid_target_amended (fs0 : FS) (mf good rest : List (String × String))
    (bad : String × String) (rewrite : String → String) (od cp : String) (t : Target)
    (hgood : ∀ f ∈ good, containsCrossDirRef f.2 = false)
    (hbad : containsCrossDirRef bad.2 = true) :
    (runWritePhase fs0 mf (good ++ bad :: rest) rewrite od cp t).invalidTargetFile = true
    ∧ (runWritePhase fs0 mf (good ++ bad :: rest) rewrite od cp t).deleted = []
    ∧ (runWritePhase fs0 mf (good ++ bad :: rest) rewrite od cp t).fs =
        (copySupportFiles (writeRenderedFiles fs0 mf).1 od rewrite good).1
    ∧ (runWritePhase fs0 mf (good ++ bad :: rest) rewrite od cp t).writeEvents =
        (writeRenderedFiles fs0 mf).2.2 ++
          (copySupportFiles (writeRenderedFiles fs0 mf).1 od rewrite good).2.2.1 := by
  have hsplit := csf_error_split od rewrite good (writeRenderedFiles fs0 mf).1 bad rest
    hgood hbad
  have herr :
      (copySupportFiles (writeRenderedFiles fs0 mf).1 od rewrite
        (good ++ bad :: rest)).2.2.2 = true := by
    rw [hsplit]
  rw [runWritePhase_err_eq fs0 mf (good ++ bad :: rest) rewrite od cp t herr, hsplit]
  exact ⟨rfl, rfl, rfl, rfl⟩

/-- Closed instance of `invalid_target_amended`. -/
theorem invalid_target_amended_witness :
    (runWritePhase [] [("out/m.ts", "const a = 1;")]
        ([("good.ts", "export const g = 1;")] ++
          ("bad.ts", "const r = require(\"edgedb/dist/reflection\");") :: []) (fun s => s)
        "out/syntax" "out/config.json" Target.ts).invalidTargetFile = true :=
  (invalid_target_amended [] [("out/m.ts", "const a = 1;")]
    [("good.ts", "export const g = 1;")] [] ("bad.ts", "const r = require(\"edgedb/dist/reflection\");")
    (fun s => s) "out/syntax" "out/config.json" Target.ts (by decide) (by decide)).1

/-- Claim C9: on every successful (non-aborted) run the metadata file is the
last write event, its path joins `written`, its on-disk content is exactly
the header comment line followed by the single serialized-profile JSON line,
and for the `ts` target that JSON line is `{"target":"ts"}`. -/
theorem config_file_last (fs0 : FS) (mf si : List (String × String))
    (rewrite : String → String) (od cp : String) (t : Target)
    (hclean : ∀ f ∈ si, containsCrossDirRef f.2 = false) :
    (runWritePhase fs0 mf si rewrite od cp t).invalidTargetFile = false
    ∧ (runWritePhase fs0 mf si rewrite od cp t).writeEvents.getLast? = some cp
    ∧ cp ∈ (runWritePhase fs0 mf si rewrite od cp t).written
    ∧ fsRead (runWritePhase fs0 mf si rewrite od cp t).fs cp =
        some (configFileContents t)
    ∧ configFileContents Target.ts =
        "// EdgeDB query builder. To update, run `npx edgeql-js`\n\x7b\"target\":\"ts\"\x7d\n" := by
  have herr :
      (copySupportFiles (writeRenderedFiles fs0 mf).1 od rewrite si).2.2.2 = false :=
    csf_err_false od rewrite si _ hclean
  rw [runWritePhase_ok_eq fs0 mf si rewrite od cp t herr]
  refine ⟨rfl, List.getLast?_concat _, by simp, ?_, by decide⟩
  have hcpw : cp ∈ (writeRenderedFiles fs0 mf).2.1 ++
      (copySupportFiles (writeRenderedFiles fs0 mf).1 od rewrite si).2.1 ++ [cp] := by
    simp
  have hnotdel : cp ∉ (fsPaths fs0).filter (fun f =>
      !((writeRenderedFiles fs0 mf).2.1 ++
        (copySupportFiles (writeRenderedFiles fs0 mf).1 od rewrite si).2.1 ++
        [cp]).contains f) := by
    intro hc
    have h2 := (List.mem_filter.mp hc).2
    have h3 : (((writeRenderedFiles fs0 mf).2.1 ++
        (copySupportFiles (writeRenderedFiles fs0 mf).1 od rewrite si).2.1 ++
        [cp]).contains cp) = true := List.elem_iff.mpr hcpw
    rw [h3] at h2
    cases h2
  rw [fsRead_foldl_fsRemove_not_mem _ _ _ hnotdel]
  exact fsRead_fsWrite_self _ cp _

/-- Closed instance of `config_file_last`. -/
theorem config_file_last_witness :
    (runWritePhase [] [("out/m.ts", "x")] [("s.ts", "y")] (fun s => s)
        "out/syntax" "out/config.json" Target.ts).writeEvents.getLast? =
      some "out/config.json" :=
  (config_file_last [] [("out/m.ts", "x")] [("s.ts", "y")] (fun s => s)
    "out/syntax" "out/config.json" Target.ts (by decide)).2.1

/-- A run against a filesystem that already agrees with every rendered
output writes nothing except the unconditional metadata file, deletes
nothing, and leaves the filesystem unchanged. -/
theorem second_run_core (fs1 : FS) (mf si : List (String × String))
    (rewrite : String → String) (od cp : String) (t : Target)
    (hclean : ∀ f ∈ si, containsCrossDirRef f.2 = false)
    (hF1 : ∀ f ∈ mf, fsRead fs1 f.1 = some f.2)
    (hF2 : ∀ f ∈ si, (fsRead fs1 (od ++ "/" ++ f.1)).getD "" = rewrite f.2)
    (hF3 : fsRead fs1 cp = some (configFileContents t))
    (hF4 : (fsPaths fs1).Nodup)
    (hF5 : ∀ q ∈ fsPaths fs1,
      q ∈ mf.map (fun f => f.1) ++ si.map (fun f => od ++ "/" ++ f.1) ++ [cp]) :
    runWritePhase fs1 mf si rewrite od cp t =
      { fs := fs1
        written := mf.map (fun f => f.1) ++ si.map (fun f => od ++ "/" ++ f.1) ++ [cp]
        writeEvents := [cp]
        deleted := []
        invalidTargetFile := false } := by
  have hm2 := wrf_noop mf fs1 hF1
  have hm2a : (writeRenderedFiles fs1 mf).1 = fs1 := by rw [hm2]
  have hm2b : (writeRenderedFiles fs1 mf).2.1 = mf.map (fun f => f.1) := by rw [hm2]
  have hm2c : (writeRenderedFiles fs1 mf).2.2 = [] := by rw [hm2]
  have hs2 := csf_noop od rewrite si fs1 hclean hF2
  have hs2a : (copySupportFiles fs1 od rewrite si).1 = fs1 := by rw [hs2]
  have hs2b : (copySupportFiles fs1 od rewrite si).2.1 =
      si.map (fun f => od ++ "/" ++ f.1) := by rw [hs2]
  have hs2c : (copySupportFiles fs1 od rewrite si).2.2.1 = [] := by rw [hs2]
  have herr2 :
      (copySupportFiles (writeRenderedFiles fs1 mf).1 od rewrite si).2.2.2 = false := by
    rw [hm2a, hs2]
  rw [runWritePhase_ok_eq fs1 mf si rewrite od cp t herr2, hm2a, hs2a, hs2b, hs2c,
    hm2b, hm2c]
  have hdel : (fsPaths fs1).filter (fun f =>
      !((mf.map (fun f => f.1) ++ si.map (fun f => od ++ "/" ++ f.1) ++ [cp]).contains f))
      = [] := by
    apply List.filter_eq_nil_iff.mpr
    intro q hq
    have hmem := hF5 q hq
    have hcont : ((mf.map (fun f => f.1) ++
        si.map (fun f => od ++ "/" ++ f.1) ++ [cp]).contains q)
        = true := List.elem_iff.mpr hmem
    rw [hcont]
    simp
  rw [hdel, List.foldl_nil, fsWrite_of_read_eq fs1 cp (configFileContents t) hF4 hF3]
  rfl

/-- Claim C3, counterexample: the second of two identical runs still performs
one file write — `config.json` is written unconditionally (generate.ts lines
476-481, with no byte comparison), refuting "the second run performs zero
file writes" and "every output path's existing content is compared". -/
theorem idempotence_counterexample :
    (runWritePhase
        (runWritePhase [] [("out/m.ts", "const a = 1;")] [("s.ts", "export const s = 1;")]
          (fun s => s) "out/syntax" "out/config.json" Target.ts).fs
        [("out/m.ts", "const a = 1;")] [("s.ts", "export const s = 1;")]
        (fun s => s) "out/syntax" "out/config.json" Target.ts).writeEvents =
      ["out/config.json"] := by
  decide

/-- Claim C3, amended: with distinct output paths and clean support files,
running the write phase twice yields a byte-identical filesystem after the
second run, and the second run writes no module or support file — its only
write event is the unconditionally rewritten metadata file `config.json`
(whose content is unchanged); it also deletes nothing and records the same
`written` set. -/
theorem idempotence_amended (fs0 : FS) (mf si : List (String × String))
    (rewrite : String → String) (od cp : String) (t : Target)
    (hmnd : (mf.map (fun f => f.1)).Nodup)
    (hsnd : (si.map (fun f => od ++ "/" ++ f.1)).Nodup)
    (hclean : ∀ f ∈ si, containsCrossDirRef f.2 = false)
    (hdisj : ∀ p ∈ mf.map (fun f => f.1), p ∉ si.map (fun f => od ++ "/" ++ f.1))
    (hmcp : cp ∉ mf.map (fun f => f.1))
    (hscp : cp ∉ si.map (fun f => od ++ "/" ++ f.1))
    (h0nd : (fsPaths fs0).Nodup) :
    (runWritePhase (runWritePhase fs0 mf si rewrite od cp t).fs
        mf si rewrite od cp t).fs = (runWritePhase fs0 mf si rewrite od cp t).fs
    ∧ (runWritePhase (runWritePhase fs0 mf si rewrite od cp t).fs
        mf si rewrite od cp t).writeEvents = [cp]
    ∧ (runWritePhase (runWritePhase fs0 mf si rewrite od cp t).fs
        mf si rewrite od cp t).written = (runWritePhase fs0 mf si rewrite od cp t).written
    ∧ (runWritePhase (runWritePhase fs0 mf si rewrite od cp t).fs
        mf si rewrite od cp t).deleted = [] := by
  have herr1 :
      (copySupportFiles (writeRenderedFiles fs0 mf).1 od rewrite si).2.2.2 = false :=
    csf_err_false od rewrite si _ hclean
  have hr1 := runWritePhase_ok_eq fs0 mf si rewrite od cp t herr1
  have hw1 : (writeRenderedFiles fs0 mf).2.1 = mf.map (fun f => f.1) := wrf_written mf fs0
  have hw2 : (copySupportFiles (writeRenderedFiles fs0 mf).1 od rewrite si).2.1 =
      si.map (fun f => od ++ "/" ++ f.1) := csf_written od rewrite si _ hclean
  have hfs1 : (runWritePhase fs0 mf si rewrite od cp t).fs =
      ((fsPaths fs0).filter (fun f =>
        !((writeRenderedFiles fs0 mf).2.1 ++
          (copySupportFiles (writeRenderedFiles fs0 mf).1 od rewrite si).2.1 ++
          [cp]).contains f)).foldl fsRemove
        (fsWrite (copySupportFiles (writeRenderedFiles fs0 mf).1 od rewrite si).1 cp
          (configFileContents t)) := by
    rw [hr1]
  have hwrit1 : (runWritePhase fs0 mf si rewrite od cp t).written =
      (writeRenderedFiles fs0 mf).2.1 ++
      (copySupportFiles (writeRenderedFiles fs0 mf).1 od rewrite si).2.1 ++ [cp] := by
    rw [hr1]
  have hnotdel : ∀ q, q ∈ ((writeRenderedFiles fs0 mf).2.1 ++
      (copySupportFiles (writeRenderedFiles fs0 mf).1 od rewrite si).2.1 ++ [cp]) →
      q ∉ (fsPaths fs0).filter (fun f =>
        !((writeRenderedFiles fs0 mf).2.1 ++
          (copySupportFiles (writeRenderedFiles fs0 mf).1 od rewrite si).2.1 ++
          [cp]).contains f) := by
    intro q hq hc
    have h2 := (List.mem_filter.mp hc).2
    have h3 : (((writeRenderedFiles fs0 mf).2.1 ++
        (copySupportFiles (writeRenderedFiles fs0 mf).1 od rewrite si).2.1 ++
        [cp]).contains q) = true := List.elem_iff.mpr hq
    rw [h3] at h2
    cases h2
  have hF1 : ∀ f ∈ mf,
      fsRead (runWritePhase fs0 mf si rewrite od cp t).fs f.1 = some f.2 := by
    intro f hf
    have hf1mem : f.1 ∈ mf.map (fun f => f.1) := List.mem_map.mpr ⟨f, hf, rfl⟩
    have hfw : f.1 ∈ (writeRenderedFiles fs0 mf).2.1 ++
        (copySupportFiles (writeRenderedFiles fs0 mf).1 od rewrite si).2.1 ++ [cp] := by
      apply List.mem_append.mpr
      left
      apply List.mem_append.mpr
      left
      rw [hw1]
      exact hf1mem
    have hne : f.1 ≠ cp := fun hc => hmcp (hc ▸ hf1mem)
    have hns : f.1 ∉ si.map (fun f => od ++ "/" ++ f.1) := hdisj f.1 hf1mem
    rw [hfs1, fsRead_foldl_fsRemove_not_mem _ _ _ (hnotdel f.1 hfw),
      fsRead_fsWrite_other _ cp _ f.1 hne,
      csf_untouched od rewrite si _ f.1 hclean hns]
    exact wrf_read_back mf fs0 hmnd f hf
  have hF2 : ∀ f ∈ si, (fsRead (runWritePhase fs0 mf si rewrite od cp t).fs
      (od ++ "/" ++ f.1)).getD "" = rewrite f.2 := by
    intro f hf
    have hfmem : od ++ "/" ++ f.1 ∈ si.map (fun f => od ++ "/" ++ f.1) :=
      List.mem_map.mpr ⟨f, hf, rfl⟩
    have hfw : od ++ "/" ++ f.1 ∈ (writeRenderedFiles fs0 mf).2.1 ++
        (copySupportFiles (writeRenderedFiles fs0 mf).1 od rewrite si).2.1 ++ [cp] := by
      apply List.mem_append.mpr
      left
      apply List.mem_append.mpr
      right
      rw [hw2]
      exact hfmem
    have hne : od ++ "/" ++ f.1 ≠ cp := fun hc => hscp (hc ▸ hfmem)
    rw [hfs1, fsRead_foldl_fsRemove_not_mem _ _ _ (hnotdel _ hfw),
      fsRead_fsWrite_other _ cp _ _ hne]
    exact csf_getD od rewrite si _ hclean hsnd f hf
  have hF3 : fsRead (runWritePhase fs0 mf si rewrite od cp t).fs cp =
      some (configFileContents t) := by
    have hfw : cp ∈ (writeRenderedFiles fs0 mf).2.1 ++
        (copySupportFiles (writeRenderedFiles fs0 mf).1 od rewrite si).2.1 ++ [cp] := by
      apply List.mem_append.mpr
      right
      simp
    rw [hfs1, fsRead_foldl_fsRemove_not_mem _ _ _ (hnotdel cp hfw)]
    exact fsRead_fsWrite_self _ cp _
  have hF4 : (fsPaths (runWritePhase fs0 mf si rewrite od cp t).fs).Nodup := by
    rw [hfs1]
    apply fsPaths_foldl_fsRemove_nodup
    apply fsPaths_fsWrite_nodup
    exact csf_nodup od rewrite si _ (wrf_nodup mf fs0 h0nd)
  have hF5 : ∀ q ∈ fsPaths (runWritePhase fs0 mf si rewrite od cp t).fs,
      q ∈ mf.map (fun f => f.1) ++ si.map (fun f => od ++ "/" ++ f.1) ++ [cp] := by
    intro q hq
    rw [hfs1] at hq
    obtain ⟨hq3, hqnd⟩ := mem_fsPaths_foldl_fsRemove _ _ q hq
    rcases mem_fsPaths_fsWrite _ cp _ q hq3 with h | h
    · rcases csf_paths od rewrite si _ q h with h2 | h2
      · rcases wrf_paths mf fs0 q h2 with h3 | h3
        · by_contra hqw
          apply hqnd
          apply List.mem_filter.mpr
          refine ⟨h3, ?_⟩
          have hcf : (((writeRenderedFiles fs0 mf).2.1 ++
              (copySupportFiles (writeRenderedFiles fs0 mf).1 od rewrite si).2.1 ++
              [cp]).contains q) = false := by
            cases hx : (((writeRenderedFiles fs0 mf).2.1 ++
                (copySupportFiles (writeRenderedFiles fs0 mf).1 od rewrite si).2.1 ++
                [cp]).contains q)
            · rfl
            · exfalso
              apply hqw
              have hmem := List.elem_iff.mp hx
              rw [hw1, hw2] at hmem
              exact hmem
          rw [hcf]
          rfl
        · exact List.mem_append.mpr (Or.inl (List.mem_append.mpr (Or.inl h3)))
      · exact List.mem_append.mpr (Or.inl (List.mem_append.mpr (Or.inr h2)))
    · exact List.mem_append.mpr (Or.inr (by simp [h]))
  have hcore := second_run_core (runWritePhase fs0 mf si rewrite od cp t).fs
    mf si rewrite od cp t hclean hF1 hF2 hF3 hF4 hF5
  refine ⟨?_, ?_, ?_, ?_⟩
  · rw [hcore]
  · rw [hcore]
  · rw [hcore, hwrit1, hw1, hw2]
  · rw [hcore]

/-- Closed instance of `idempotence_amended`: the second run's filesystem is
byte-identical to the first run's. -/
theorem idempotence_amended_witness :
    (runWritePhase
        (runWritePhase [] [("out/m.ts", "const a = 1;")] [("s.ts", "export const s = 1;")]
          (fun s => s) "out/syntax" "out/config.json" Target.ts).fs
        [("out/m.ts", "const a = 1;")] [("s.ts", "export const s = 1;")]
        (fun s => s) "out/syntax" "out/config.json" Target.ts).fs =
      (runWritePhase [] [("out/m.ts", "const a = 1;")] [("s.ts", "export const s = 1;")]
        (fun s => s) "out/syntax" "out/config.json" Target.ts).fs :=
  (idempotence_amended [] [("out/m.ts", "const a = 1;")] [("s.ts", "export const s = 1;")]
    (fun s => s) "out/syntax" "out/config.json" Target.ts
    (by decide) (by decide) (by decide) (by decide) (by decide) (by decide) (by decide)).1

/-- Closed instance of `merge_precedence` at two one-key namespaces sharing
the key `"k"`. -/
theorem merge_precedence_witness :
    "k" ∈ conflictingKeysFor
        (mergeSpreads [] ([] ++ ⟨"nsA", some ["k"], none⟩ :: [])).excludedKeys
        ⟨"nsB", some ["k"], none⟩
    ∧ typeStrFor (mergeSpreads [] ([] ++ ⟨"nsA", some ["k"], none⟩ :: [])).excludedKeys
        ⟨"nsB", some ["k"], none⟩ =
        "Omit<typeof " ++ "nsB" ++ ", " ++
          String.intercalate " | "
            ((conflictingKeysFor
                (mergeSpreads [] ([] ++ ⟨"nsA", some ["k"], none⟩ :: [])).excludedKeys
                ⟨"nsB", some ["k"], none⟩).map quote)
          ++ ">"
    ∧ (∃ rest,
        (mergeSpreads [] ([] ++ ⟨"nsA", some ["k"], none⟩ ::
            [] ++ ⟨"nsB", some ["k"], none⟩ :: [])).spreadTypes =
          (mergeSpreads [] ([] ++ ⟨"nsA", some ["k"], none⟩ :: [])).spreadTypes ++
            spreadTypeEntry
              (mergeSpreads [] ([] ++ ⟨"nsA", some ["k"], none⟩ :: [])).excludedKeys
              ⟨"nsB", some ["k"], none⟩ :: rest)
    ∧ runtimeSpreads ([] ++ ⟨"nsA", some ["k"], none⟩ ::
          [] ++ ⟨"nsB", some ["k"], none⟩ :: []) =
        runtimeSpreads [] ++ spreadExpr ⟨"nsB", some ["k"], none⟩ ::
          (runtimeSpreads [] ++ spreadExpr ⟨"nsA", some ["k"], none⟩ :: runtimeSpreads []) :=
  merge_precedence [] [] [] [] ⟨"nsA", some ["k"], none⟩ ⟨"nsB", some ["k"], none⟩ "k"
    rfl rfl (by decide) (by decide)

end EdgedbGen
